import Mathlib

/-!
# Verification of the `figsearch` bitmap analyzer

Shallow embedding of `src/example/figsearch/figsearch.c`: a command-line
tool that loads a textual bitmap (height, width, then height*width pixels
of 0/1 in row-major order) and reports the longest horizontal run of set
pixels.  Machine `unsigned` arithmetic is modelled over `Nat` with explicit
reduction modulo 2^32 at the operations where wrap-around is possible
(the loop-bound subtraction `width - length_final`, the flat index
`y * width + x`, and the loader's area computation `width * height`).
Increments such as `x + 1` are written without a reduction: every such
increment in the source acts on a value strictly below `2^32 - 1`
(bounded by a bitmap dimension, itself an `unsigned` value), so no wrap
can occur there.
-/

/-- `2^32`, the modulus of the C `unsigned int` arithmetic used throughout. -/
def UINT : Nat := 4294967296

/-- C unsigned subtraction `a - b` for operands already reduced mod `2^32`. -/
def usub (a b : Nat) : Nat := (a + (UINT - b % UINT)) % UINT

/-- `Point` from figsearch.c: zero-based column `x` and row `y`. -/
structure Point where
  x : Nat
  y : Nat
deriving DecidableEq

/-- `Line` from figsearch.c: an inclusive segment between two points. -/
structure Line where
  start : Point
  «end» : Point
deriving DecidableEq

/-- `Bitmap` from figsearch.c: dimensions plus the flat row-major pixel
array (`data[y*width + x]`).  The C fields are `unsigned`, hence `< 2^32`;
that representation constraint appears in `ValidGrid` below. -/
structure Bitmap where
  width : Nat
  height : Nat
  data : List Bool
deriving DecidableEq

/-- The pixel access `bitmap->data[y * bitmap->width + x]` — the index is
computed in C `unsigned` arithmetic.  Out-of-range reads (undefined
behaviour in C, never exercised on valid grids) default to `false`. -/
def Bitmap.cell (bm : Bitmap) (y x : Nat) : Bool :=
  bm.data.getD ((y * bm.width + x) % UINT) false

/-- The spec's Grid invariant: positive dimensions and `cells` of length
`width*height`, together with the `unsigned`-typedness of the two
dimension fields. -/
def ValidGrid (bm : Bitmap) : Prop :=
  0 < bm.width ∧ 0 < bm.height ∧
    bm.width < UINT ∧ bm.height < UINT ∧
    bm.data.length = bm.width * bm.height

/-- The local state of `find_hline`: `start_final`/`end_final` hold the
best run found so far, `length_final` its length (0 while no run has been
recorded; C leaves the two points uninitialised until the first update,
and never reads them while `length_final == 0`, so defaulting them is
observationally identical). -/
structure SState where
  start_final : Point
  end_final : Point
  length_final : Nat
deriving DecidableEq

/-- `hline_length` from figsearch.c: `end.x - start.x + 1` in `unsigned`
arithmetic. -/
def hline_length (s e : Point) : Nat := (usub e.x s.x + 1) % UINT

/-- The inner extension loop of `find_hline` (`for (unsigned i = x + 1; ...)`):
starting from column `i` with current run end `endx`, walk right while
pixels are set.  Returns the final `end.x` together with the value that
the variable `x` has after the loop (on `break` the source sets `x = i`
at the first unset pixel; on normal exhaustion `x` is unchanged). -/
def extendLoop (bm : Bitmap) (y x endx i : Nat) : Nat × Nat :=
  if i < bm.width then
    if bm.cell y i then extendLoop bm y x i (i + 1)
    else (endx, i)
  else (endx, x)
termination_by bm.width - i

/-- Lines 114–119 of figsearch.c: replace the best-so-far only when no run
has been recorded yet or on strict length improvement. -/
def updateBest (st : SState) (y x endx : Nat) : SState :=
  if st.length_final = 0 ∨ st.length_final < hline_length ⟨x, y⟩ ⟨endx, y⟩ then
    ⟨⟨x, y⟩, ⟨endx, y⟩, hline_length ⟨x, y⟩ ⟨endx, y⟩⟩
  else st

theorem extendLoop_snd_ge (bm : Bitmap) (y x : Nat) :
    ∀ k i endx, bm.width ≤ i + k → x ≤ i → x ≤ (extendLoop bm y x endx i).2 := by
  intro k
  induction k with
  | zero =>
    intro i endx hk hxi
    rw [extendLoop]
    split
    · omega
    · simp
  | succ k ih =>
    intro i endx hk hxi
    rw [extendLoop]
    split
    · split
      · exact ih (i + 1) i (by omega) (by omega)
      · simpa using hxi
    · simp

/-- The per-row column loop of `find_hline` (`for (unsigned x = 0;
x < bitmap->width - length_final; x++)`), with the C `unsigned`
subtraction in the bound.  On a set pixel the inner loop runs, the best
is updated, and scanning resumes after the position the inner loop left
`x` at (the loop increment). -/
def rowLoop (bm : Bitmap) (y x : Nat) (st : SState) : SState :=
  if x < usub bm.width st.length_final then
    if bm.cell y x then
      rowLoop bm y ((extendLoop bm y x x (x + 1)).2 + 1)
        (updateBest st y x (extendLoop bm y x x (x + 1)).1)
    else
      rowLoop bm y (x + 1) st
  else st
termination_by UINT - x
decreasing_by
  · have h1 : x ≤ (extendLoop bm y x x (x + 1)).2 :=
      extendLoop_snd_ge bm y x bm.width (x + 1) x (by omega) (by omega)
    have h2 : usub bm.width st.length_final < UINT := by
      unfold usub; exact Nat.mod_lt _ (by norm_num [UINT])
    omega
  · have h2 : usub bm.width st.length_final < UINT := by
      unfold usub; exact Nat.mod_lt _ (by norm_num [UINT])
    omega

/-- The outer row loop of `find_hline`. -/
def findLoop (bm : Bitmap) (y : Nat) (st : SState) : SState :=
  if y < bm.height then findLoop bm (y + 1) (rowLoop bm y 0 st) else st
termination_by bm.height - y

/-- `find_hline` from figsearch.c.  The C function returns 0 and writes
`*line` when a run was found, 1 otherwise; that is modelled as
`Option Line`. -/
def find_hline (bm : Bitmap) : Option Line :=
  let st := findLoop bm 0 ⟨⟨0, 0⟩, ⟨0, 0⟩, 0⟩
  if st.length_final ≠ 0 then some ⟨st.start_final, st.end_final⟩ else none

/-- A whitespace-separated token of the input file: a (non-negative)
numeral, or anything a `%u`/`%d` conversion rejects. -/
inductive Token where
  | num (n : Nat)
  | other
deriving DecidableEq

/-- The readable content of an input file, as the token stream that
successive `fscanf` conversions consume. -/
structure Source where
  tokens : List Token
deriving DecidableEq

/-- The pixel-reading loop of `load_bitmap` (lines 63–73): read `n`
tokens, each of which must be the literal `0` or `1` (`fscanf("%d")`
succeeding and the value check passing); any other token, or running out
of input, fails.  Tokens after the `n`-th are never consumed. -/
def readPixels : Nat → List Token → Option (List Bool)
  | 0, _ => some []
  | _ + 1, [] => none
  | n + 1, Token.num 0 :: ts => (readPixels n ts).map (fun l => false :: l)
  | n + 1, Token.num 1 :: ts => (readPixels n ts).map (fun l => true :: l)
  | _ + 1, _ :: _ => none

/-- `load_bitmap` from figsearch.c.  `src = none` models an unreadable
file (`fopen` failing).  The first two tokens are `height` then `width`
(`fscanf("%u %u", &height, &width)`, each stored reduced mod `2^32`);
a non-numeral or missing token makes the conversion count fall short of 2.
Then the zero-dimension check (`width <= 0 || height <= 0` on `unsigned`
values is a test for zero), the area computation `width * height` in
`unsigned` arithmetic, and the pixel loop.  `malloc` is assumed to
succeed: allocation failure is environment nondeterminism outside this
model.  The error strings are the diagnostics printed to `stderr`. -/
def load_bitmap (src : Option Source) : Except String Bitmap :=
  match src with
  | none => .error "File not found\n"
  | some s =>
    match s.tokens with
    | Token.num h :: Token.num w :: rest =>
      let height := h % UINT
      let width := w % UINT
      if width = 0 ∨ height = 0 then .error "Invalid bitmap size\n"
      else
        let bitmap_area := (width * height) % UINT
        match readPixels bitmap_area rest with
        | none => .error "Invalid pixel value\n"
        | some data => .ok ⟨width, height, data⟩
    | _ => .error "Invalid file format\n"

/-- The text printed by `print_help`. -/
def help_text : String :=
  "Usage: figsearch COMMAND [FILE]\n" ++
  "Commands:\n" ++
  "  --help   Display this help message\n" ++
  "  test     Check if the file contains valid bitmap\n" ++
  "  hline    Find longest horizontal line\n"

/-- `print_line` from figsearch.c: the four coordinates as decimal
`unsigned` values, space-separated, newline-terminated. -/
def print_line (l : Line) : String :=
  toString l.start.y ++ " " ++ toString l.start.x ++ " " ++
    toString l.«end».y ++ " " ++ toString l.«end».x ++ "\n"

/-- `get_filename` from figsearch.c: `argv[2]` when `argc > 2`. -/
def get_filename (argv : List String) : Option String :=
  if argv.length > 2 then argv.get? 2 else none

/-- What one invocation leaves behind: everything written to `stdout`,
everything written to `stderr`, and the process exit code. -/
structure ExecOut where
  out : String
  err : String
  exit : Nat
deriving DecidableEq

/-- `main` from figsearch.c.  `argv` is the full argument vector
(`argv[0]` the program name), `fs` maps a file name to its readable
content (`none`: `fopen` fails). -/
def main_run (argv : List String) (fs : String → Option Source) : ExecOut :=
  if argv.length < 2 ∨ argv.length > 3 then ⟨"", "Invalid arguments\n", 1⟩
  else if argv.getD 1 "" = "--help" then ⟨help_text, "", 0⟩
  else
    let filename := get_filename argv
    if argv.getD 1 "" = "test" then
      match filename with
      | none => ⟨"", "Filename required\n", 1⟩
      | some f =>
        match load_bitmap (fs f) with
        | .error e => ⟨"", e, 1⟩
        | .ok _ => ⟨"", "", 0⟩
    else if argv.getD 1 "" = "hline" then
      match filename with
      | none => ⟨"", "Filename required\n", 1⟩
      | some f =>
        match load_bitmap (fs f) with
        | .error e => ⟨"", e, 1⟩
        | .ok bm =>
          match find_hline bm with
          | some l => ⟨print_line l, "", 0⟩
          | none => ⟨"", "No line found\n", 1⟩
    else ⟨"", "Invalid command\n", 1⟩

/-- Modelled from the spec: the rightward extension of the naive
reference scan — from column `i` with current run end `endx`, "extend the
run rightward while cells remain set". -/
def naiveExtend (bm : Bitmap) (y endx i : Nat) : Nat :=
  if i < bm.width then
    if bm.cell y i then naiveExtend bm y i (i + 1)
    else endx
  else endx
termination_by bm.width - i

/-- Modelled from the spec: the naive reference row scan, which "examines
every cell of every row with no skipping": every column `x` of the row is
visited in turn; at a set cell the run through it is measured and the
best-so-far replaced only on strict improvement. -/
def naiveRow (bm : Bitmap) (y x : Nat) (st : SState) : SState :=
  if x < bm.width then
    if bm.cell y x then
      naiveRow bm y (x + 1) (updateBest st y x (naiveExtend bm y x (x + 1)))
    else
      naiveRow bm y (x + 1) st
  else st
termination_by bm.width - x

/-- Modelled from the spec: rows scanned top to bottom. -/
def naiveScan (bm : Bitmap) (y : Nat) (st : SState) : SState :=
  if y < bm.height then naiveScan bm (y + 1) (naiveRow bm y 0 st) else st
termination_by bm.height - y

/-- Modelled from the spec: the naive reference search with no skipping,
same success/failure convention as `find_hline`. -/
def naive_hline (bm : Bitmap) : Option Line :=
  let st := naiveScan bm 0 ⟨⟨0, 0⟩, ⟨0, 0⟩, 0⟩
  if st.length_final ≠ 0 then some ⟨st.start_final, st.end_final⟩ else none

/-- Columns `a..b` of row `y` all hold set cells (a horizontal run of set
cells, not necessarily maximal), within the grid bounds. -/
def RunCells (bm : Bitmap) (y a b : Nat) : Prop :=
  y < bm.height ∧ a ≤ b ∧ b < bm.width ∧
    ∀ j, a ≤ j → j ≤ b → bm.cell y j = true

/-- A maximal horizontal run: set cells `a..b` of row `y`, with the cell
left of `a` and the cell right of `b` each unset or outside the grid. -/
def MaxRun (bm : Bitmap) (y a b : Nat) : Prop :=
  RunCells bm y a b ∧
    (a = 0 ∨ bm.cell y (a - 1) = false) ∧
    (b + 1 = bm.width ∨ bm.cell y (b + 1) = false)

theorem usub_lt (a b : Nat) : usub a b < UINT := by
  unfold usub
  exact Nat.mod_lt _ (by norm_num [UINT])

theorem usub_eq (a b : Nat) (hba : b ≤ a) (ha : a < UINT) : usub a b = a - b := by
  have hU : UINT = 4294967296 := rfl
  unfold usub
  rw [hU] at ha ⊢
  omega

theorem hline_length_eq (x e y y' : Nat) (hxe : x ≤ e) (he : e + 1 < UINT) :
    hline_length ⟨x, y⟩ ⟨e, y'⟩ = e - x + 1 := by
  have hU : UINT = 4294967296 := rfl
  unfold hline_length usub
  simp only
  rw [hU] at he ⊢
  omega

theorem extendLoop_spec (bm : Bitmap) (y x : Nat) :
    ∀ k i endx, bm.width ≤ i + k → x < i → i ≤ bm.width → endx + 1 = i →
    (∀ j, x ≤ j → j < i → bm.cell y j = true) →
    x ≤ (extendLoop bm y x endx i).1 ∧
    (extendLoop bm y x endx i).1 + 1 ≤ bm.width ∧
    (∀ j, x ≤ j → j ≤ (extendLoop bm y x endx i).1 → bm.cell y j = true) ∧
    ((extendLoop bm y x endx i).2 = x ∧ (extendLoop bm y x endx i).1 + 1 = bm.width ∨
      (extendLoop bm y x endx i).2 = (extendLoop bm y x endx i).1 + 1 ∧
      (extendLoop bm y x endx i).1 + 1 < bm.width ∧
      bm.cell y ((extendLoop bm y x endx i).1 + 1) = false) := by
  intro k
  induction k with
  | zero =>
    intro i endx hk hxi hiw he hcells
    rw [extendLoop]
    rw [if_neg (by omega)]
    exact ⟨by omega, by omega, fun j hj1 hj2 => hcells j hj1 (by omega),
      Or.inl ⟨rfl, by omega⟩⟩
  | succ k ih =>
    intro i endx hk hxi hiw he hcells
    rw [extendLoop]
    by_cases hi : i < bm.width
    · rw [if_pos hi]
      by_cases hc : bm.cell y i = true
      · rw [if_pos hc]
        refine ih (i + 1) i (by omega) (by omega) (by omega) rfl ?_
        intro j hj1 hj2
        rcases Nat.lt_or_ge j i with h | h
        · exact hcells j hj1 h
        · have hji : j = i := by omega
          subst hji
          exact hc
      · rw [if_neg hc]
        refine ⟨by omega, by omega, fun j hj1 hj2 => hcells j hj1 (by omega),
          Or.inr ⟨by omega, by omega, ?_⟩⟩
        have : endx + 1 = i := he
        rw [this]
        simpa using hc
    · rw [if_neg hi]
      exact ⟨by omega, by omega, fun j hj1 hj2 => hcells j hj1 (by omega),
        Or.inl ⟨rfl, by omega⟩⟩

theorem extend_at (bm : Bitmap) (y x : Nat) (hx : x < bm.width)
    (hc : bm.cell y x = true) :
    x ≤ (extendLoop bm y x x (x + 1)).1 ∧
    (extendLoop bm y x x (x + 1)).1 + 1 ≤ bm.width ∧
    (∀ j, x ≤ j → j ≤ (extendLoop bm y x x (x + 1)).1 → bm.cell y j = true) ∧
    ((extendLoop bm y x x (x + 1)).2 = x ∧
        (extendLoop bm y x x (x + 1)).1 + 1 = bm.width ∨
      (extendLoop bm y x x (x + 1)).2 = (extendLoop bm y x x (x + 1)).1 + 1 ∧
      (extendLoop bm y x x (x + 1)).1 + 1 < bm.width ∧
      bm.cell y ((extendLoop bm y x x (x + 1)).1 + 1) = false) := by
  refine extendLoop_spec bm y x bm.width (x + 1) x (by omega) (by omega) (by omega) rfl ?_
  intro j hj1 hj2
  have hjx : j = x := by omega
  subst hjx
  exact hc

/-- The loop invariant common to the optimized row scan and the naive
reference scan, at the point where column `x` of row `y` is about to be
examined and `st` is the best-so-far state.  Linear-arithmetic-friendly
forms are used: `b + 1 ≤ a + len` is `b - a + 1 ≤ len` for `a ≤ b`. -/
structure ScanInv (bm : Bitmap) (y x : Nat) (st : SState) : Prop where
  len_le : st.length_final ≤ bm.width
  len_zero : st.length_final = 0 → ∀ y' x', x' < bm.width →
    (y' < y ∨ (y' = y ∧ x' < x)) → bm.cell y' x' = false
  rec_run : st.length_final ≠ 0 →
    MaxRun bm st.start_final.y st.start_final.x st.end_final.x
  rec_y : st.length_final ≠ 0 → st.end_final.y = st.start_final.y
  rec_len : st.length_final ≠ 0 →
    st.length_final = st.end_final.x - st.start_final.x + 1
  rec_pos : st.length_final ≠ 0 →
    st.start_final.y < y ∨ (st.start_final.y = y ∧ st.start_final.x < x)
  dom : ∀ y' a b, RunCells bm y' a b → (y' < y ∨ (y' = y ∧ a < x)) →
    b + 1 ≤ a + st.length_final
  lex : st.length_final ≠ 0 → ∀ y' a b, MaxRun bm y' a b →
    st.length_final + a ≤ b + 1 →
    st.start_final.y < y' ∨ (st.start_final.y = y' ∧ st.start_final.x ≤ a)

/-- `ScanInv` strengthened with what the skip optimization of `rowLoop`
additionally maintains: the current column is a fresh run start unless the
loop is about to exit. -/
structure RowInv (bm : Bitmap) (y x : Nat) (st : SState) extends
    ScanInv bm y x st : Prop where
  left_ok : x = 0 ∨ bm.cell y (x - 1) = false ∨
    usub bm.width st.length_final ≤ x

theorem rowStep_set (bm : Bitmap) (hw : bm.width < UINT) (y : Nat)
    (hy : y < bm.height) (x : Nat) (st : SState)
    (hguard : x < usub bm.width st.length_final)
    (hcell : bm.cell y x = true) (inv : RowInv bm y x st) :
    RowInv bm y ((extendLoop bm y x x (x + 1)).2 + 1)
      (updateBest st y x (extendLoop bm y x x (x + 1)).1) := by
  have husub : usub bm.width st.length_final = bm.width - st.length_final :=
    usub_eq _ _ inv.len_le hw
  have hxw : x < bm.width := by omega
  obtain ⟨hxr1, hr1w, hcells, hexit⟩ := extend_at bm y x hxw hcell
  set r1 := (extendLoop bm y x x (x + 1)).1 with hr1def
  set r2 := (extendLoop bm y x x (x + 1)).2 with hr2def
  have hL : hline_length ⟨x, y⟩ ⟨r1, y⟩ = r1 - x + 1 :=
    hline_length_eq x r1 y y hxr1 (by omega)
  have hr2x : x ≤ r2 := by rcases hexit with ⟨h, _⟩ | ⟨h, _, _⟩ <;> omega
  have hrun : RunCells bm y x r1 := ⟨hy, hxr1, by omega, hcells⟩
  have hleft : x = 0 ∨ bm.cell y (x - 1) = false := by
    rcases inv.left_ok with h | h | h
    · exact Or.inl h
    · exact Or.inr h
    · omega
  have hmax : MaxRun bm y x r1 := by
    refine ⟨hrun, hleft, ?_⟩
    rcases hexit with ⟨_, h⟩ | ⟨_, _, hc⟩
    · exact Or.inl h
    · exact Or.inr hc
  have hseg : ∀ a b, x ≤ a → a < r2 + 1 → RunCells bm y a b → b ≤ r1 := by
    intro a b hxa har2 hrc
    obtain ⟨_, hab, hbw, hcells'⟩ := hrc
    by_contra hb
    rcases hexit with ⟨h2, h1w⟩ | ⟨h2, hlt, hc⟩
    · omega
    · have : bm.cell y (r1 + 1) = true := hcells' (r1 + 1) (by omega) (by omega)
      rw [hc] at this
      exact Bool.false_ne_true this
  rw [updateBest, hL]
  by_cases hupd : st.length_final = 0 ∨ st.length_final < r1 - x + 1
  · rw [if_pos hupd]
    refine ⟨⟨?_, ?_, ?_, ?_, ?_, ?_, ?_, ?_⟩, ?_⟩
    · dsimp only
      omega
    · dsimp only
      intro h
      omega
    · intro _
      dsimp only
      exact hmax
    · intro _
      rfl
    · intro _
      dsimp only
    · intro _
      dsimp only
      exact Or.inr ⟨rfl, by omega⟩
    · intro y' a b hrc hpos
      dsimp only
      have hab : a ≤ b := hrc.2.1
      have hbw : b < bm.width := hrc.2.2.1
      rcases hpos with h | ⟨rfl, hax⟩
      · have h1 := inv.dom _ _ _ hrc (Or.inl h)
        rcases hupd with h2 | h2 <;> omega
      · rcases Nat.lt_or_ge a x with hax' | hax'
        · have h1 := inv.dom _ _ _ hrc (Or.inr ⟨rfl, hax'⟩)
          rcases hupd with h2 | h2 <;> omega
        · have hbr1 := hseg a b hax' hax hrc
          omega
    · intro _ y' a b hmr hlen
      dsimp only at hlen ⊢
      have hab : a ≤ b := hmr.1.2.1
      rcases Nat.lt_trichotomy y' y with h | h | h
      · have h1 := inv.dom _ _ _ hmr.1 (Or.inl h)
        rcases hupd with h2 | h2 <;> omega
      · subst h
        rcases Nat.lt_or_ge a x with hax | hax
        · have h1 := inv.dom _ _ _ hmr.1 (Or.inr ⟨rfl, hax⟩)
          rcases hupd with h2 | h2 <;> omega
        · exact Or.inr ⟨rfl, hax⟩
      · exact Or.inl h
    · dsimp only
      rcases hexit with ⟨h2, h1w⟩ | ⟨h2, hlt, hc⟩
      · refine Or.inr (Or.inr ?_)
        rw [usub_eq _ _ (by omega) hw]
        omega
      · refine Or.inr (Or.inl ?_)
        rw [h2]
        simpa using hc
  · rw [if_neg hupd]
    push_neg at hupd
    obtain ⟨hst0, hLle⟩ := hupd
    refine ⟨⟨inv.len_le, ?_, inv.rec_run, inv.rec_y, inv.rec_len, ?_, ?_, inv.lex⟩, ?_⟩
    · intro h
      exact absurd h hst0
    · intro h
      rcases inv.rec_pos h with h' | ⟨h1, h2⟩
      · exact Or.inl h'
      · exact Or.inr ⟨h1, by omega⟩
    · intro y' a b hrc hpos
      have hab : a ≤ b := hrc.2.1
      have hbw : b < bm.width := hrc.2.2.1
      rcases hpos with h | ⟨rfl, hax⟩
      · exact inv.dom _ _ _ hrc (Or.inl h)
      · rcases Nat.lt_or_ge a x with hax' | hax'
        · exact inv.dom _ _ _ hrc (Or.inr ⟨rfl, hax'⟩)
        · have hbr1 := hseg a b hax' hax hrc
          omega
    · rcases hexit with ⟨h2, h1w⟩ | ⟨h2, hlt, hc⟩
      · refine Or.inr (Or.inr ?_)
        rw [usub_eq _ _ inv.len_le hw]
        omega
      · refine Or.inr (Or.inl ?_)
        rw [h2]
        simpa using hc

theorem rowStep_unset (bm : Bitmap) (y x : Nat) (st : SState)
    (hcell : bm.cell y x = false) (inv : RowInv bm y x st) :
    RowInv bm y (x + 1) st := by
  refine ⟨⟨inv.len_le, ?_, inv.rec_run, inv.rec_y, inv.rec_len, ?_, ?_, inv.lex⟩, ?_⟩
  · intro h y' x' hx'w hpos
    rcases hpos with h' | ⟨rfl, hx'⟩
    · exact inv.len_zero h _ _ hx'w (Or.inl h')
    · rcases Nat.lt_or_ge x' x with h' | h'
      · exact inv.len_zero h _ _ hx'w (Or.inr ⟨rfl, h'⟩)
      · have : x' = x := by omega
        subst this
        exact hcell
  · intro h
    rcases inv.rec_pos h with h' | ⟨h1, h2⟩
    · exact Or.inl h'
    · exact Or.inr ⟨h1, by omega⟩
  · intro y' a b hrc hpos
    have hcell_a : bm.cell y' a = true := hrc.2.2.2 a (Nat.le_refl a) hrc.2.1
    rcases hpos with h | ⟨rfl, hax⟩
    · exact inv.dom _ _ _ hrc (Or.inl h)
    · rcases Nat.lt_or_ge a x with h' | h'
      · exact inv.dom _ _ _ hrc (Or.inr ⟨rfl, h'⟩)
      · have : a = x := by omega
        subst this
        rw [hcell] at hcell_a
        exact absurd hcell_a (by simp)
  · refine Or.inr (Or.inl ?_)
    simpa using hcell

theorem rowStep_exit (bm : Bitmap) (hw : bm.width < UINT) (y x : Nat)
    (st : SState) (hguard : ¬x < usub bm.width st.length_final)
    (inv : RowInv bm y x st) : RowInv bm (y + 1) 0 st := by
  have husub : usub bm.width st.length_final = bm.width - st.length_final :=
    usub_eq _ _ inv.len_le hw
  have hxw : bm.width - st.length_final ≤ x := by omega
  refine ⟨⟨inv.len_le, ?_, inv.rec_run, inv.rec_y, inv.rec_len, ?_, ?_, inv.lex⟩, ?_⟩
  · intro h y' x' hx'w hpos
    have hxfull : bm.width ≤ x := by omega
    rcases hpos with h' | ⟨rfl, hx'⟩
    · rcases Nat.lt_or_ge y' y with h'' | h''
      · exact inv.len_zero h _ _ hx'w (Or.inl h'')
      · have : y' = y := by omega
        subst this
        exact inv.len_zero h _ _ hx'w (Or.inr ⟨rfl, by omega⟩)
    · omega
  · intro h
    rcases inv.rec_pos h with h' | ⟨h1, h2⟩
    · exact Or.inl (by omega)
    · exact Or.inl (by omega)
  · intro y' a b hrc hpos
    have hab : a ≤ b := hrc.2.1
    have hbw : b < bm.width := hrc.2.2.1
    rcases hpos with h | ⟨rfl, hax⟩
    · rcases Nat.lt_or_ge y' y with h'' | h''
      · exact inv.dom _ _ _ hrc (Or.inl h'')
      · have : y' = y := by omega
        subst this
        rcases Nat.lt_or_ge a x with h3 | h3
        · exact inv.dom _ _ _ hrc (Or.inr ⟨rfl, h3⟩)
        · omega
    · omega
  · exact Or.inl rfl

theorem rowLoop_inv (bm : Bitmap) (hw : bm.width < UINT) (y : Nat)
    (hy : y < bm.height) :
    ∀ x st, RowInv bm y x st → RowInv bm (y + 1) 0 (rowLoop bm y x st) := by
  intro x st
  induction x, st using rowLoop.induct bm y with
  | case1 x st hguard hcell ih =>
    intro inv
    rw [rowLoop, if_pos hguard, if_pos hcell]
    exact ih (rowStep_set bm hw y hy x st hguard hcell inv)
  | case2 x st hguard hcell ih =>
    intro inv
    rw [rowLoop, if_pos hguard, if_neg hcell]
    exact ih (rowStep_unset bm y x st (by simpa using hcell) inv)
  | case3 x st hguard =>
    intro inv
    rw [rowLoop, if_neg hguard]
    exact rowStep_exit bm hw y x st hguard inv

theorem findLoop_inv (bm : Bitmap) (hw : bm.width < UINT) :
    ∀ y st, y ≤ bm.height → RowInv bm y 0 st →
    RowInv bm bm.height 0 (findLoop bm y st) := by
  intro y st
  induction y, st using findLoop.induct bm with
  | case1 y st hy ih =>
    intro _ inv
    rw [findLoop, if_pos hy]
    exact ih hy (rowLoop_inv bm hw y hy 0 st inv)
  | case2 y st hy =>
    intro hle inv
    rw [findLoop, if_neg hy]
    have : y = bm.height := by omega
    subst this
    exact inv

theorem scanInv_init (bm : Bitmap) : ScanInv bm 0 0 ⟨⟨0, 0⟩, ⟨0, 0⟩, 0⟩ := by
  refine ⟨?_, ?_, ?_, ?_, ?_, ?_, ?_, ?_⟩ <;> dsimp only
  · omega
  · intro _ y' x' _ hpos
    omega
  · intro h
    omega
  · intro h
    omega
  · intro h
    omega
  · intro h
    omega
  · intro y' a b _ hpos
    omega
  · intro h
    omega

/-- The characterization of both searches' successful answer: a maximal
run, at least as long as every horizontal run of set cells in the grid,
and first in scan order among the equal-longest maximal runs. -/
def HCharLine (bm : Bitmap) (l : Line) : Prop :=
  MaxRun bm l.start.y l.start.x l.«end».x ∧
    l.«end».y = l.start.y ∧
    (∀ y a b, RunCells bm y a b → b + 1 ≤ a + (l.«end».x - l.start.x + 1)) ∧
    (∀ y a b, MaxRun bm y a b → (l.«end».x - l.start.x + 1) + a ≤ b + 1 →
      l.start.y < y ∨ (l.start.y = y ∧ l.start.x ≤ a))

theorem scanInv_final_some (bm : Bitmap) (st : SState)
    (inv : ScanInv bm bm.height 0 st) (h0 : st.length_final ≠ 0) :
    HCharLine bm ⟨st.start_final, st.end_final⟩ := by
  have hlen := inv.rec_len h0
  refine ⟨?_, ?_, ?_, ?_⟩ <;> dsimp only
  · exact inv.rec_run h0
  · exact inv.rec_y h0
  · intro y a b hrc
    have := inv.dom _ _ _ hrc (Or.inl hrc.1)
    omega
  · intro y a b hmr hl
    refine inv.lex h0 _ _ _ hmr ?_
    omega

theorem scanInv_final_none (bm : Bitmap) (st : SState)
    (inv : ScanInv bm bm.height 0 st) (h0 : st.length_final = 0) :
    ∀ y x, y < bm.height → x < bm.width → bm.cell y x = false := by
  intro y x hy hx
  exact inv.len_zero h0 _ _ hx (Or.inl hy)

theorem scanInv_nonzero_of_cell (bm : Bitmap) (st : SState)
    (inv : ScanInv bm bm.height 0 st) (y x : Nat) (hy : y < bm.height)
    (hx : x < bm.width) (hc : bm.cell y x = true) : st.length_final ≠ 0 := by
  intro h0
  have := scanInv_final_none bm st inv h0 y x hy hx
  rw [hc] at this
  exact absurd this (by simp)

theorem find_hline_some_char (bm : Bitmap) (hw : bm.width < UINT) (l : Line)
    (hl : find_hline bm = some l) : HCharLine bm l := by
  have inv := (findLoop_inv bm hw 0 ⟨⟨0, 0⟩, ⟨0, 0⟩, 0⟩ (Nat.zero_le _)
    ⟨scanInv_init bm, Or.inl rfl⟩).toScanInv
  simp only [find_hline] at hl
  by_cases h0 : (findLoop bm 0 ⟨⟨0, 0⟩, ⟨0, 0⟩, 0⟩).length_final ≠ 0
  · rw [if_pos h0] at hl
    obtain rfl := Option.some.inj hl
    exact scanInv_final_some _ _ inv h0
  · rw [if_neg h0] at hl
    exact absurd hl (by simp)

theorem find_hline_none_iff (bm : Bitmap) (hw : bm.width < UINT) :
    find_hline bm = none ↔
      ∀ y x, y < bm.height → x < bm.width → bm.cell y x = false := by
  have inv := (findLoop_inv bm hw 0 ⟨⟨0, 0⟩, ⟨0, 0⟩, 0⟩ (Nat.zero_le _)
    ⟨scanInv_init bm, Or.inl rfl⟩).toScanInv
  simp only [find_hline]
  by_cases h0 : (findLoop bm 0 ⟨⟨0, 0⟩, ⟨0, 0⟩, 0⟩).length_final = 0
  · rw [if_neg (fun h => h h0)]
    exact iff_of_true rfl (scanInv_final_none _ _ inv h0)
  · rw [if_pos h0]
    refine iff_of_false (by simp) ?_
    intro hall
    have hmr := inv.rec_run h0
    obtain ⟨hy', hab, hbw, hcells⟩ := hmr.1
    have hc := hcells _ (Nat.le_refl _) hab
    rw [hall _ _ hy' (by omega)] at hc
    exact Bool.false_ne_true hc

theorem find_hline_some_of_cell (bm : Bitmap) (hw : bm.width < UINT)
    (y x : Nat) (hy : y < bm.height) (hx : x < bm.width)
    (hc : bm.cell y x = true) :
    ∃ l, find_hline bm = some l ∧ HCharLine bm l := by
  have inv := (findLoop_inv bm hw 0 ⟨⟨0, 0⟩, ⟨0, 0⟩, 0⟩ (Nat.zero_le _)
    ⟨scanInv_init bm, Or.inl rfl⟩).toScanInv
  have h0 := scanInv_nonzero_of_cell _ _ inv y x hy hx hc
  refine ⟨⟨(findLoop bm 0 ⟨⟨0, 0⟩, ⟨0, 0⟩, 0⟩).start_final,
    (findLoop bm 0 ⟨⟨0, 0⟩, ⟨0, 0⟩, 0⟩).end_final⟩, ?_,
    scanInv_final_some _ _ inv h0⟩
  simp only [find_hline]
  rw [if_pos h0]

theorem naiveExtend_eq (bm : Bitmap) (y : Nat) :
    ∀ k i endx x, bm.width ≤ i + k →
    naiveExtend bm y endx i = (extendLoop bm y x endx i).1 := by
  intro k
  induction k with
  | zero =>
    intro i endx x hk
    rw [naiveExtend, extendLoop, if_neg (by omega), if_neg (by omega)]
  | succ k ih =>
    intro i endx x hk
    rw [naiveExtend, extendLoop]
    by_cases hi : i < bm.width
    · rw [if_pos hi, if_pos hi]
      by_cases hc : bm.cell y i = true
      · rw [if_pos hc, if_pos hc]
        exact ih (i + 1) i x (by omega)
      · rw [if_neg hc, if_neg hc]
    · rw [if_neg hi, if_neg hi]

theorem naiveStep_set (bm : Bitmap) (hw : bm.width < UINT) (y : Nat)
    (hy : y < bm.height) (x : Nat) (st : SState) (hxw : x < bm.width)
    (hcell : bm.cell y x = true) (inv : ScanInv bm y x st) :
    ScanInv bm y (x + 1) (updateBest st y x (naiveExtend bm y x (x + 1))) := by
  obtain ⟨hxr1, hr1w, hcells, hexit⟩ := extend_at bm y x hxw hcell
  have hne : naiveExtend bm y x (x + 1) = (extendLoop bm y x x (x + 1)).1 :=
    naiveExtend_eq bm y bm.width (x + 1) x x (by omega)
  rw [hne]
  set r1 := (extendLoop bm y x x (x + 1)).1 with hr1def
  have hL : hline_length ⟨x, y⟩ ⟨r1, y⟩ = r1 - x + 1 :=
    hline_length_eq x r1 y y hxr1 (by omega)
  have hrun : RunCells bm y x r1 := ⟨hy, hxr1, by omega, hcells⟩
  have hright : r1 + 1 = bm.width ∨ bm.cell y (r1 + 1) = false := by
    rcases hexit with ⟨_, h⟩ | ⟨_, _, hc⟩
    · exact Or.inl h
    · exact Or.inr hc
  have hseg : ∀ b, RunCells bm y x b → b ≤ r1 := by
    intro b hrc
    have hab : x ≤ b := hrc.2.1
    have hbw : b < bm.width := hrc.2.2.1
    by_contra hb
    rcases hright with h1w | hc
    · omega
    · have : bm.cell y (r1 + 1) = true := hrc.2.2.2 (r1 + 1) (by omega) (by omega)
      rw [hc] at this
      exact Bool.false_ne_true this
  rw [updateBest, hL]
  by_cases hupd : st.length_final = 0 ∨ st.length_final < r1 - x + 1
  · have hleft : x = 0 ∨ bm.cell y (x - 1) = false := by
      by_contra hno
      push_neg at hno
      obtain ⟨hx0, hcx1⟩ := hno
      have hcx1' : bm.cell y (x - 1) = true := by
        simpa using hcx1
      have hrc' : RunCells bm y (x - 1) r1 := by
        refine ⟨hy, by omega, by omega, ?_⟩
        intro j hj1 hj2
        rcases Nat.lt_or_ge j x with h | h
        · have : j = x - 1 := by omega
          subst this
          exact hcx1'
        · exact hcells j h hj2
      have := inv.dom _ _ _ hrc' (Or.inr ⟨rfl, by omega⟩)
      rcases hupd with h2 | h2 <;> omega
    have hmax : MaxRun bm y x r1 := ⟨hrun, hleft, hright⟩
    rw [if_pos hupd]
    refine ⟨?_, ?_, ?_, ?_, ?_, ?_, ?_, ?_⟩ <;> dsimp only
    · omega
    · intro h
      omega
    · intro _
      exact hmax
    · intro _
      rfl
    · intro _
      rfl
    · intro _
      exact Or.inr ⟨rfl, by omega⟩
    · intro y' a b hrc hpos
      have hab : a ≤ b := hrc.2.1
      have hbw : b < bm.width := hrc.2.2.1
      rcases hpos with h | ⟨rfl, hax⟩
      · have h1 := inv.dom _ _ _ hrc (Or.inl h)
        rcases hupd with h2 | h2 <;> omega
      · rcases Nat.lt_or_ge a x with hax' | hax'
        · have h1 := inv.dom _ _ _ hrc (Or.inr ⟨rfl, hax'⟩)
          rcases hupd with h2 | h2 <;> omega
        · have hax : a = x := by omega
          subst hax
          have hbr1 := hseg b hrc
          omega
    · intro _ y' a b hmr hlen
      have hab : a ≤ b := hmr.1.2.1
      rcases Nat.lt_trichotomy y' y with h | h | h
      · have h1 := inv.dom _ _ _ hmr.1 (Or.inl h)
        rcases hupd with h2 | h2 <;> omega
      · subst h
        rcases Nat.lt_or_ge a x with hax | hax
        · have h1 := inv.dom _ _ _ hmr.1 (Or.inr ⟨rfl, hax⟩)
          rcases hupd with h2 | h2 <;> omega
        · exact Or.inr ⟨rfl, hax⟩
      · exact Or.inl h
  · rw [if_neg hupd]
    push_neg at hupd
    obtain ⟨hst0, hLle⟩ := hupd
    refine ⟨inv.len_le, ?_, inv.rec_run, inv.rec_y, inv.rec_len, ?_, ?_, inv.lex⟩
    · intro h
      exact absurd h hst0
    · intro h
      rcases inv.rec_pos h with h' | ⟨h1, h2⟩
      · exact Or.inl h'
      · exact Or.inr ⟨h1, by omega⟩
    · intro y' a b hrc hpos
      have hab : a ≤ b := hrc.2.1
      rcases hpos with h | ⟨rfl, hax⟩
      · exact inv.dom _ _ _ hrc (Or.inl h)
      · rcases Nat.lt_or_ge a x with hax' | hax'
        · exact inv.dom _ _ _ hrc (Or.inr ⟨rfl, hax'⟩)
        · have hax2 : a = x := by omega
          subst hax2
          have hbr1 := hseg b hrc
          omega

theorem naiveStep_unset (bm : Bitmap) (y x : Nat) (st : SState)
    (hcell : bm.cell y x = false) (inv : ScanInv bm y x st) :
    ScanInv bm y (x + 1) st := by
  refine ⟨inv.len_le, ?_, inv.rec_run, inv.rec_y, inv.rec_len, ?_, ?_, inv.lex⟩
  · intro h y' x' hx'w hpos
    rcases hpos with h' | ⟨rfl, hx'⟩
    · exact inv.len_zero h _ _ hx'w (Or.inl h')
    · rcases Nat.lt_or_ge x' x with h' | h'
      · exact inv.len_zero h _ _ hx'w (Or.inr ⟨rfl, h'⟩)
      · have : x' = x := by omega
        subst this
        exact hcell
  · intro h
    rcases inv.rec_pos h with h' | ⟨h1, h2⟩
    · exact Or.inl h'
    · exact Or.inr ⟨h1, by omega⟩
  · intro y' a b hrc hpos
    have hcell_a : bm.cell y' a = true := hrc.2.2.2 a (Nat.le_refl a) hrc.2.1
    rcases hpos with h | ⟨rfl, hax⟩
    · exact inv.dom _ _ _ hrc (Or.inl h)
    · rcases Nat.lt_or_ge a x with h' | h'
      · exact inv.dom _ _ _ hrc (Or.inr ⟨rfl, h'⟩)
      · have : a = x := by omega
        subst this
        rw [hcell] at hcell_a
        exact absurd hcell_a (by simp)

theorem naiveStep_exit (bm : Bitmap) (y x : Nat) (st : SState)
    (hxw : ¬x < bm.width) (inv : ScanInv bm y x st) :
    ScanInv bm (y + 1) 0 st := by
  refine ⟨inv.len_le, ?_, inv.rec_run, inv.rec_y, inv.rec_len, ?_, ?_, inv.lex⟩
  · intro h y' x' hx'w hpos
    rcases hpos with h' | ⟨rfl, hx'⟩
    · rcases Nat.lt_or_ge y' y with h'' | h''
      · exact inv.len_zero h _ _ hx'w (Or.inl h'')
      · have : y' = y := by omega
        subst this
        exact inv.len_zero h _ _ hx'w (Or.inr ⟨rfl, by omega⟩)
    · omega
  · intro h
    rcases inv.rec_pos h with h' | ⟨h1, h2⟩ <;> exact Or.inl (by omega)
  · intro y' a b hrc hpos
    have hbw : b < bm.width := hrc.2.2.1
    have hab : a ≤ b := hrc.2.1
    rcases hpos with h | ⟨rfl, hax⟩
    · rcases Nat.lt_or_ge y' y with h'' | h''
      · exact inv.dom _ _ _ hrc (Or.inl h'')
      · have : y' = y := by omega
        subst this
        exact inv.dom _ _ _ hrc (Or.inr ⟨rfl, by omega⟩)
    · omega

theorem naiveRow_inv (bm : Bitmap) (hw : bm.width < UINT) (y : Nat)
    (hy : y < bm.height) :
    ∀ x st, ScanInv bm y x st → ScanInv bm (y + 1) 0 (naiveRow bm y x st) := by
  intro x st
  induction x, st using naiveRow.induct bm y with
  | case1 x st hxw hcell ih =>
    intro inv
    rw [naiveRow, if_pos hxw, if_pos hcell]
    exact ih (naiveStep_set bm hw y hy x st hxw hcell inv)
  | case2 x st hxw hcell ih =>
    intro inv
    rw [naiveRow, if_pos hxw, if_neg hcell]
    exact ih (naiveStep_unset bm y x st (by simpa using hcell) inv)
  | case3 x st hxw =>
    intro inv
    rw [naiveRow, if_neg hxw]
    exact naiveStep_exit bm y x st hxw inv

theorem naiveScan_inv (bm : Bitmap) (hw : bm.width < UINT) :
    ∀ y st, y ≤ bm.height → ScanInv bm y 0 st →
    ScanInv bm bm.height 0 (naiveScan bm y st) := by
  intro y st
  induction y, st using naiveScan.induct bm with
  | case1 y st hy ih =>
    intro _ inv
    rw [naiveScan, if_pos hy]
    exact ih hy (naiveRow_inv bm hw y hy 0 st inv)
  | case2 y st hy =>
    intro hle inv
    rw [naiveScan, if_neg hy]
    have : y = bm.height := by omega
    subst this
    exact inv

theorem naive_hline_some_char (bm : Bitmap) (hw : bm.width < UINT) (l : Line)
    (hl : naive_hline bm = some l) : HCharLine bm l := by
  have inv := naiveScan_inv bm hw 0 ⟨⟨0, 0⟩, ⟨0, 0⟩, 0⟩ (Nat.zero_le _)
    (scanInv_init bm)
  simp only [naive_hline] at hl
  by_cases h0 : (naiveScan bm 0 ⟨⟨0, 0⟩, ⟨0, 0⟩, 0⟩).length_final ≠ 0
  · rw [if_pos h0] at hl
    obtain rfl := Option.some.inj hl
    exact scanInv_final_some _ _ inv h0
  · rw [if_neg h0] at hl
    exact absurd hl (by simp)

theorem naive_hline_none_iff (bm : Bitmap) (hw : bm.width < UINT) :
    naive_hline bm = none ↔
      ∀ y x, y < bm.height → x < bm.width → bm.cell y x = false := by
  have inv := naiveScan_inv bm hw 0 ⟨⟨0, 0⟩, ⟨0, 0⟩, 0⟩ (Nat.zero_le _)
    (scanInv_init bm)
  simp only [naive_hline]
  by_cases h0 : (naiveScan bm 0 ⟨⟨0, 0⟩, ⟨0, 0⟩, 0⟩).length_final = 0
  · rw [if_neg (fun h => h h0)]
    exact iff_of_true rfl (scanInv_final_none _ _ inv h0)
  · rw [if_pos h0]
    refine iff_of_false (by simp) ?_
    intro hall
    have hmr := inv.rec_run h0
    obtain ⟨hy', hab, hbw, hcells⟩ := hmr.1
    have hc := hcells _ (Nat.le_refl _) hab
    rw [hall _ _ hy' (by omega)] at hc
    exact Bool.false_ne_true hc

theorem naive_hline_some_of_cell (bm : Bitmap) (hw : bm.width < UINT)
    (y x : Nat) (hy : y < bm.height) (hx : x < bm.width)
    (hc : bm.cell y x = true) :
    ∃ l, naive_hline bm = some l ∧ HCharLine bm l := by
  have inv := naiveScan_inv bm hw 0 ⟨⟨0, 0⟩, ⟨0, 0⟩, 0⟩ (Nat.zero_le _)
    (scanInv_init bm)
  have h0 := scanInv_nonzero_of_cell _ _ inv y x hy hx hc
  refine ⟨⟨(naiveScan bm 0 ⟨⟨0, 0⟩, ⟨0, 0⟩, 0⟩).start_final,
    (naiveScan bm 0 ⟨⟨0, 0⟩, ⟨0, 0⟩, 0⟩).end_final⟩, ?_,
    scanInv_final_some _ _ inv h0⟩
  simp only [naive_hline]
  rw [if_pos h0]

theorem HCharLine_unique (bm : Bitmap) (l1 l2 : Line)
    (h1 : HCharLine bm l1) (h2 : HCharLine bm l2) : l1 = l2 := by
  obtain ⟨hm1, hy1, hd1, hx1⟩ := h1
  obtain ⟨hm2, hy2, hd2, hx2⟩ := h2
  have hab1 : l1.start.x ≤ l1.«end».x := hm1.1.2.1
  have hab2 : l2.start.x ≤ l2.«end».x := hm2.1.2.1
  have hlen12 := hd2 _ _ _ hm1.1
  have hlen21 := hd1 _ _ _ hm2.1
  have hlex12 := hx1 _ _ _ hm2 (by omega)
  have hlex21 := hx2 _ _ _ hm1 (by omega)
  have hys : l1.start.y = l2.start.y := by
    rcases hlex12 with h | ⟨h, _⟩ <;> rcases hlex21 with h' | ⟨h', _⟩ <;> omega
  have hxs : l1.start.x = l2.start.x := by
    rcases hlex12 with h | ⟨h, hle⟩ <;> rcases hlex21 with h' | ⟨h', hle'⟩ <;> omega
  have hxe : l1.«end».x = l2.«end».x := by omega
  have hye : l1.«end».y = l2.«end».y := by rw [hy1, hy2, hys]
  obtain ⟨⟨s1x, s1y⟩, ⟨e1x, e1y⟩⟩ := l1
  obtain ⟨⟨s2x, s2y⟩, ⟨e2x, e2y⟩⟩ := l2
  simp only [Line.mk.injEq, Point.mk.injEq]
  exact ⟨⟨hxs, hys⟩, hxe, hye⟩

/-- C1: on every valid grid with at least one set cell, `find_hline`
succeeds, and the returned `Line` is a genuine maximal horizontal run of
set cells (same row, `start.x ≤ end.x`, all cells of the inclusive column
interval set, flanked left and right by an unset cell or the grid edge)
whose length is at least the length of every horizontal run of set cells
in the grid. -/
theorem find_hline_finds_longest_run (bm : Bitmap) (hv : ValidGrid bm)
    (hcell : ∃ y x, y < bm.height ∧ x < bm.width ∧ bm.cell y x = true) :
    ∃ l, find_hline bm = some l ∧
      l.start.y = l.«end».y ∧ l.start.x ≤ l.«end».x ∧
      l.start.y < bm.height ∧ l.«end».x < bm.width ∧
      (∀ j, l.start.x ≤ j → j ≤ l.«end».x → bm.cell l.start.y j = true) ∧
      (l.start.x = 0 ∨ bm.cell l.start.y (l.start.x - 1) = false) ∧
      (l.«end».x + 1 = bm.width ∨ bm.cell l.start.y (l.«end».x + 1) = false) ∧
      (∀ y a b, RunCells bm y a b →
        b - a + 1 ≤ l.«end».x - l.start.x + 1) := by
  obtain ⟨y, x, hy, hx, hc⟩ := hcell
  have hw : bm.width < UINT := hv.2.2.1
  obtain ⟨l, hl, hchar⟩ := find_hline_some_of_cell bm hw y x hy hx hc
  obtain ⟨hmr, hye, hdom, hlex⟩ := hchar
  obtain ⟨⟨hy', hab, hbw, hcells⟩, hleft, hright⟩ := hmr
  refine ⟨l, hl, hye.symm, hab, hy', hbw, hcells, hleft, hright, ?_⟩
  intro y' a b hrc
  have := hdom y' a b hrc
  have hab' : a ≤ b := hrc.2.1
  omega

/-- C2: the run `find_hline` returns is first in scan order among the
maximal runs of greatest length — smaller row wins, then smaller starting
column; the best-so-far is replaced only on strict improvement. -/
theorem find_hline_tiebreak (bm : Bitmap) (hv : ValidGrid bm) (l : Line)
    (hl : find_hline bm = some l) (y a b : Nat) (hmr : MaxRun bm y a b)
    (hlen : l.«end».x - l.start.x + 1 ≤ b - a + 1) :
    l.start.y < y ∨ (l.start.y = y ∧ l.start.x ≤ a) := by
  have hw : bm.width < UINT := hv.2.2.1
  have hchar := find_hline_some_char bm hw l hl
  have hab : a ≤ b := hmr.1.2.1
  exact hchar.2.2.2 y a b hmr (by omega)

/-- C3: the skip-optimized scan of `find_hline` returns exactly the same
outcome — same success/failure and same `Line` — as the naive reference
scan that examines every cell of every row with no skipping. -/
theorem find_hline_refines_naive (bm : Bitmap) (hv : ValidGrid bm) :
    find_hline bm = naive_hline bm := by
  have hw : bm.width < UINT := hv.2.2.1
  by_cases hcell : ∃ y x, y < bm.height ∧ x < bm.width ∧ bm.cell y x = true
  · obtain ⟨y, x, hy, hx, hc⟩ := hcell
    obtain ⟨l1, hl1, hc1⟩ := find_hline_some_of_cell bm hw y x hy hx hc
    obtain ⟨l2, hl2, hc2⟩ := naive_hline_some_of_cell bm hw y x hy hx hc
    rw [hl1, hl2, HCharLine_unique bm l1 l2 hc1 hc2]
  · have hall : ∀ y x, y < bm.height → x < bm.width → bm.cell y x = false := by
      intro y x hy hx
      rcases Bool.eq_false_or_eq_true (bm.cell y x) with h | h
      · exact absurd ⟨y, x, hy, hx, h⟩ hcell
      · exact h
    rw [(find_hline_none_iff bm hw).mpr hall, (naive_hline_none_iff bm hw).mpr hall]

theorem rowLoop_len_le (bm : Bitmap) (hw : bm.width < UINT) (y : Nat) :
    ∀ x st, st.length_final ≤ bm.width →
    (rowLoop bm y x st).length_final ≤ bm.width := by
  intro x st
  induction x, st using rowLoop.induct bm y with
  | case1 x st hguard hcell ih =>
    intro hle
    rw [rowLoop, if_pos hguard, if_pos hcell]
    apply ih
    have husub := usub_eq _ _ hle hw
    have hxw : x < bm.width := by omega
    obtain ⟨hxr1, hr1w, _, _⟩ := extend_at bm y x hxw hcell
    rw [updateBest]
    split
    · dsimp only
      rw [hline_length_eq x _ y y hxr1 (by omega)]
      omega
    · exact hle
  | case2 x st hguard hcell ih =>
    intro hle
    rw [rowLoop, if_pos hguard, if_neg hcell]
    exact ih hle
  | case3 x st hguard =>
    intro hle
    rw [rowLoop, if_neg hguard]
    exact hle

theorem findLoop_len_le (bm : Bitmap) (hw : bm.width < UINT) :
    ∀ y st, st.length_final ≤ bm.width →
    (findLoop bm y st).length_final ≤ bm.width := by
  intro y st
  induction y, st using findLoop.induct bm with
  | case1 y st hy ih =>
    intro hle
    rw [findLoop, if_pos hy]
    exact ih (rowLoop_len_le bm hw y 0 st hle)
  | case2 y st hy =>
    intro hle
    rw [findLoop, if_neg hy]
    exact hle

/-- C9: whenever the column loop's bound `bitmap->width - length_final`
is evaluated, `length_final ≤ width` holds, so the `unsigned` subtraction
equals the mathematical one and never wraps below zero: the bound on
`length_final` holds initially (it is 0), and both the row scan and the
whole grid scan preserve it. -/
theorem find_hline_no_wraparound (bm : Bitmap) (_hw0 : 0 < bm.width)
    (hwU : bm.width < UINT) :
    (∀ st : SState, st.length_final ≤ bm.width →
      usub bm.width st.length_final = bm.width - st.length_final) ∧
    (∀ y x st, st.length_final ≤ bm.width →
      (rowLoop bm y x st).length_final ≤ bm.width) ∧
    (∀ y st, st.length_final ≤ bm.width →
      (findLoop bm y st).length_final ≤ bm.width) := by
  refine ⟨fun st hle => usub_eq _ _ hle hwU, ?_, ?_⟩
  · intro y x st hle
    exact rowLoop_len_le bm hwU y x st hle
  · intro y st hle
    exact findLoop_len_le bm hwU y st hle

/-- A token the pixel loop accepts: the literal `0` or the literal `1`. -/
def goodPixel (t : Token) : Prop := t = Token.num 0 ∨ t = Token.num 1

theorem readPixels_length :
    ∀ n ts l, readPixels n ts = some l → l.length = n := by
  intro n
  induction n with
  | zero =>
    intro ts l h
    rw [readPixels] at h
    obtain rfl := Option.some.inj h
    rfl
  | succ n ih =>
    intro ts l h
    match ts with
    | [] => exact absurd h (by rw [readPixels]; simp)
    | Token.num 0 :: ts' =>
      rw [readPixels] at h
      obtain ⟨l', hl', rfl⟩ := Option.map_eq_some'.mp h
      simp [ih ts' l' hl']
    | Token.num 1 :: ts' =>
      rw [readPixels] at h
      obtain ⟨l', hl', rfl⟩ := Option.map_eq_some'.mp h
      simp [ih ts' l' hl']
    | Token.num (m + 2) :: ts' => exact absurd h (by simp [readPixels])
    | Token.other :: ts' => exact absurd h (by simp [readPixels])

theorem readPixels_some (n : Nat) :
    ∀ ts, n ≤ ts.length → (∀ i, i < n → goodPixel (ts.getD i Token.other)) →
    ∃ l, readPixels n ts = some l ∧
      ∀ i, i < n → (l.getD i false = true ↔ ts.getD i Token.other = Token.num 1) := by
  induction n with
  | zero =>
    intro ts _ _
    exact ⟨[], by rw [readPixels], fun i hi => absurd hi (by omega)⟩
  | succ n ih =>
    intro ts hlen hgood
    match ts with
    | [] => simp at hlen
    | t :: ts' =>
      have h0 := hgood 0 (by omega)
      have htail : ∀ i, i < n → goodPixel (ts'.getD i Token.other) := by
        intro i hi
        have := hgood (i + 1) (by omega)
        simpa using this
      obtain ⟨l, hl, hiff⟩ := ih ts' (by simpa using hlen) htail
      rcases h0 with h0 | h0 <;> rw [show (t :: ts').getD 0 Token.other = t from rfl] at h0 <;> subst h0
      · refine ⟨false :: l, by rw [readPixels, hl]; rfl, ?_⟩
        intro i hi
        match i with
        | 0 => simp
        | i + 1 => simpa using hiff i (by omega)
      · refine ⟨true :: l, by rw [readPixels, hl]; rfl, ?_⟩
        intro i hi
        match i with
        | 0 => simp
        | i + 1 => simpa using hiff i (by omega)

theorem readPixels_none (n : Nat) :
    ∀ ts, (∃ i, i < n ∧ ¬goodPixel (ts.getD i Token.other)) →
    readPixels n ts = none := by
  induction n with
  | zero =>
    intro ts ⟨i, hi, _⟩
    omega
  | succ n ih =>
    intro ts ⟨i, hi, hbad⟩
    match ts with
    | [] => rw [readPixels]
    | Token.num 0 :: ts' =>
      match i with
      | 0 => exact absurd (Or.inl rfl) hbad
      | i + 1 =>
        rw [readPixels, ih ts' ⟨i, by omega, by simpa using hbad⟩]
        rfl
    | Token.num 1 :: ts' =>
      match i with
      | 0 => exact absurd (Or.inr rfl) hbad
      | i + 1 =>
        rw [readPixels, ih ts' ⟨i, by omega, by simpa using hbad⟩]
        rfl
    | Token.num (m + 2) :: ts' => simp [readPixels]
    | Token.other :: ts' => simp [readPixels]

/-- C5: the loader reads height before width, then exactly
`height*width` pixel tokens in row-major order, storing them so that
`cells[y*width+x]` is the pixel of row `y`, column `x`. -/
theorem load_bitmap_layout (h w : Nat) (ps rest : List Token)
    (hh : 0 < h) (hw : 0 < w) (hhU : h < UINT) (hwU : w < UINT)
    (hpU : w * h < UINT) (hlen : ps.length = h * w)
    (hvals : ∀ i, i < h * w → goodPixel (ps.getD i Token.other)) :
    ∃ bm, load_bitmap (some ⟨Token.num h :: Token.num w :: (ps ++ rest)⟩) =
        Except.ok bm ∧
      bm.height = h ∧ bm.width = w ∧ bm.data.length = h * w ∧
      ∀ y x, y < h → x < w →
        (bm.data.getD (y * bm.width + x) false = true ↔
          ps.getD (y * w + x) Token.other = Token.num 1) := by
  have hcomm : w * h = h * w := Nat.mul_comm w h
  have hgood' : ∀ i, i < w * h →
      goodPixel ((ps ++ rest).getD i Token.other) := by
    intro i hi
    rw [List.getD_append _ _ _ _ (by omega)]
    exact hvals i (by omega)
  obtain ⟨l, hrp, hiff⟩ := readPixels_some (w * h) (ps ++ rest)
    (by rw [List.length_append]; omega) hgood'
  have hllen := readPixels_length _ _ _ hrp
  refine ⟨⟨w, h, l⟩, ?_, rfl, rfl, by dsimp only; omega, ?_⟩
  · simp only [load_bitmap, Nat.mod_eq_of_lt hhU, Nat.mod_eq_of_lt hwU,
      Nat.mod_eq_of_lt hpU]
    rw [if_neg (by omega), hrp]
  · intro y x hy hx
    have hyx : y * w + x < h * w := by
      calc y * w + x < y * w + w := by omega
        _ = (y + 1) * w := by ring
        _ ≤ h * w := Nat.mul_le_mul_right w hy
    have := hiff (y * w + x) (by omega)
    rw [List.getD_append _ _ _ _ (by omega)] at this
    exact this

/-- C6: the loader validates in source order and fails exactly on: an
unreadable source; a missing or non-numeral dimension token or a
dimension that is zero once reduced; a bad or missing pixel token within
the first `width*height` (computed in `unsigned` arithmetic); tokens
beyond the required count are never examined and cannot cause failure. -/
theorem load_bitmap_validation :
    load_bitmap none = Except.error "File not found\n" ∧
    (∀ ts, (¬∃ h w rest, ts = Token.num h :: Token.num w :: rest) →
      load_bitmap (some ⟨ts⟩) = Except.error "Invalid file format\n") ∧
    (∀ h w rest, h % UINT = 0 ∨ w % UINT = 0 →
      load_bitmap (some ⟨Token.num h :: Token.num w :: rest⟩) =
        Except.error "Invalid bitmap size\n") ∧
    (∀ h w rest, h % UINT ≠ 0 → w % UINT ≠ 0 →
      (∃ i, i < (w % UINT * (h % UINT)) % UINT ∧
          ¬goodPixel (rest.getD i Token.other)) →
      load_bitmap (some ⟨Token.num h :: Token.num w :: rest⟩) =
        Except.error "Invalid pixel value\n") ∧
    (∀ h w rest, h % UINT ≠ 0 → w % UINT ≠ 0 →
      (∀ i, i < (w % UINT * (h % UINT)) % UINT →
        goodPixel (rest.getD i Token.other)) →
      ∃ bm, load_bitmap (some ⟨Token.num h :: Token.num w :: rest⟩) =
        Except.ok bm) := by
  refine ⟨rfl, ?_, ?_, ?_, ?_⟩
  · intro ts hts
    match ts with
    | [] => rfl
    | [Token.num h] => rfl
    | [Token.other] => rfl
    | Token.other :: t :: rest => rfl
    | Token.num h :: Token.other :: rest => rfl
    | Token.num h :: Token.num w :: rest =>
      exact absurd ⟨h, w, rest, rfl⟩ hts
  · intro h w rest hz
    simp only [load_bitmap]
    rw [if_pos (by rcases hz with h' | h' <;> [exact Or.inr h'; exact Or.inl h'])]
  · intro h w rest hh hw hbad
    simp only [load_bitmap]
    rw [if_neg (by omega), readPixels_none _ _ hbad]
  · intro h w rest hh hw hgood
    have hlen : (w % UINT * (h % UINT)) % UINT ≤ rest.length := by
      by_contra hlt
      have hbad := hgood rest.length (by omega)
      rw [List.getD_eq_default _ _ (Nat.le_refl _)] at hbad
      rcases hbad with h' | h' <;> exact absurd h' (by simp)
    obtain ⟨l, hrp, _⟩ :=
      readPixels_some ((w % UINT * (h % UINT)) % UINT) rest hlen hgood
    refine ⟨⟨w % UINT, h % UINT, l⟩, ?_⟩
    simp only [load_bitmap]
    rw [if_neg (by omega), hrp]

/-- C10: the required pixel count is `width*height` reduced mod `2^32`:
for positive dimensions whose product overflows, the loader demands only
the reduced count of pixel tokens and otherwise accepts the source. -/
theorem load_bitmap_area_mod (h w : Nat) (rest : List Token)
    (hhU : h < UINT) (hwU : w < UINT) (hh0 : h ≠ 0) (hw0 : w ≠ 0) :
    (∀ d, readPixels ((w * h) % UINT) rest = some d →
      load_bitmap (some ⟨Token.num h :: Token.num w :: rest⟩) =
        Except.ok ⟨w, h, d⟩) ∧
    (readPixels ((w * h) % UINT) rest = none →
      load_bitmap (some ⟨Token.num h :: Token.num w :: rest⟩) =
        Except.error "Invalid pixel value\n") := by
  constructor
  · intro d hd
    simp only [load_bitmap, Nat.mod_eq_of_lt hhU, Nat.mod_eq_of_lt hwU]
    rw [if_neg (by omega), hd]
  · intro hd
    simp only [load_bitmap, Nat.mod_eq_of_lt hhU, Nat.mod_eq_of_lt hwU]
    rw [if_neg (by omega), hd]

theorem load_bitmap_dims (src : Option Source) (bm : Bitmap)
    (hok : load_bitmap src = Except.ok bm) :
    bm.width < UINT ∧ bm.height < UINT := by
  unfold load_bitmap at hok
  split at hok
  · exact absurd hok (by simp)
  · split at hok
    · simp only at hok
      split at hok
      · exact absurd hok (by simp)
      · split at hok
        · exact absurd hok (by simp)
        · injection hok with hbm
          subst hbm
          exact ⟨Nat.mod_lt _ (by norm_num [UINT]), Nat.mod_lt _ (by norm_num [UINT])⟩
    · exact absurd hok (by simp)

theorem main_run_hline_none (fs : String → Option Source) (p f : String)
    (bm : Bitmap) (hok : load_bitmap (fs f) = Except.ok bm)
    (hnone : find_hline bm = none) :
    main_run [p, "hline", f] fs = ⟨"", "No line found\n", 1⟩ := by
  simp only [main_run, get_filename]
  norm_num
  rw [if_neg (by decide), if_neg (by decide), hok]
  dsimp only
  rw [hnone]

theorem main_run_hline_some (fs : String → Option Source) (p f : String)
    (bm : Bitmap) (l : Line) (hok : load_bitmap (fs f) = Except.ok bm)
    (hl : find_hline bm = some l) :
    main_run [p, "hline", f] fs = ⟨print_line l, "", 0⟩ := by
  simp only [main_run, get_filename]
  norm_num
  rw [if_neg (by decide), if_neg (by decide), hok]
  dsimp only
  rw [hl]

/-- C4: `find_hline` fails exactly on grids with no set cell, and the
`hline` command then prints a diagnostic on the error stream and exits 1
with nothing on standard output, while on a grid with a set cell it
prints the winning line on standard output and exits 0. -/
theorem hline_none_iff_blank (fs : String → Option Source) (p f : String)
    (bm : Bitmap) (hok : load_bitmap (fs f) = Except.ok bm) :
    (find_hline bm = none ↔
      ∀ y x, y < bm.height → x < bm.width → bm.cell y x = false) ∧
    ((∀ y x, y < bm.height → x < bm.width → bm.cell y x = false) →
      main_run [p, "hline", f] fs = ⟨"", "No line found\n", 1⟩) ∧
    (∀ l, find_hline bm = some l →
      main_run [p, "hline", f] fs = ⟨print_line l, "", 0⟩) := by
  have hw := (load_bitmap_dims _ _ hok).1
  refine ⟨find_hline_none_iff bm hw, ?_, ?_⟩
  · intro hall
    exact main_run_hline_none fs p f bm hok ((find_hline_none_iff bm hw).mpr hall)
  · intro l hl
    exact main_run_hline_some fs p f bm l hok hl

/-- The source text `"2 3\n0 1 1\n1 1 1"` as its token stream. -/
def src23 : Source :=
  ⟨[Token.num 2, Token.num 3, Token.num 0, Token.num 1, Token.num 1,
    Token.num 1, Token.num 1, Token.num 1]⟩

/-- The grid that source describes: width 3, height 2, row-major data. -/
def bm23 : Bitmap := ⟨3, 2, [false, true, true, true, true, true]⟩

theorem load_src23 : load_bitmap (some src23) = Except.ok bm23 := by rfl

theorem find_hline_bm23 : find_hline bm23 = some ⟨⟨0, 1⟩, ⟨2, 1⟩⟩ := by
  simp [find_hline, findLoop, rowLoop, extendLoop, updateBest, hline_length,
    usub, UINT, bm23, Bitmap.cell, SState.length_final]

/-- C7: on the source `"2 3\n0 1 1\n1 1 1"` the loader yields a height-2,
width-3 grid, and `hline` prints exactly `"1 0 1 2\n"` and exits 0 — the
row-1 run of length 3 beats the row-0 run of length 2. -/
theorem hline_scenario_2x3 :
    load_bitmap (some src23) = Except.ok bm23 ∧
    bm23.height = 2 ∧ bm23.width = 3 ∧
    main_run ["figsearch", "hline", "fig.txt"] (fun _ => some src23) =
      ⟨"1 0 1 2\n", "", 0⟩ := by
  refine ⟨load_src23, rfl, rfl, ?_⟩
  have h := main_run_hline_some (fun _ => some src23) "figsearch" "fig.txt"
    bm23 ⟨⟨0, 1⟩, ⟨2, 1⟩⟩ load_src23 find_hline_bm23
  rw [h]
  rfl

/-- C8: the dispatcher prints usage and exits 0 on `--help`; `test` and
`hline` without a filename give the distinct missing-filename diagnostic
and exit 1; an unknown verb, or an argument count other than one verb
plus at most one filename, gives a diagnostic and exit 1. -/
theorem dispatcher_usage :
    (∀ p fs, main_run [p, "--help"] fs = ⟨help_text, "", 0⟩) ∧
    (∀ p fs, main_run [p, "test"] fs = ⟨"", "Filename required\n", 1⟩) ∧
    (∀ p fs, main_run [p, "hline"] fs = ⟨"", "Filename required\n", 1⟩) ∧
    (∀ p v f fs, v ≠ "--help" → v ≠ "test" → v ≠ "hline" →
      main_run [p, v] fs = ⟨"", "Invalid command\n", 1⟩ ∧
      main_run [p, v, f] fs = ⟨"", "Invalid command\n", 1⟩) ∧
    (∀ argv fs, argv.length < 2 ∨ argv.length > 3 →
      main_run argv fs = ⟨"", "Invalid arguments\n", 1⟩) := by
  refine ⟨?_, ?_, ?_, ?_, ?_⟩
  · intro p fs
    simp only [main_run]
    norm_num
  · intro p fs
    simp only [main_run, get_filename]
    norm_num
    decide
  · intro p fs
    simp only [main_run, get_filename]
    norm_num
    decide
  · intro p v f fs hv1 hv2 hv3
    constructor
    · simp only [main_run, get_filename]
      norm_num
      rw [if_neg hv1, if_neg hv2, if_neg hv3]
    · simp only [main_run, get_filename]
      norm_num
      rw [if_neg hv1, if_neg hv2, if_neg hv3]
  · intro argv fs h
    simp only [main_run]
    rw [if_pos h]

theorem find_hline_finds_longest_run_witness :
    ValidGrid bm23 ∧
    (∃ l, find_hline bm23 = some l ∧
      l.start.y = l.«end».y ∧ l.start.x ≤ l.«end».x ∧
      l.start.y < bm23.height ∧ l.«end».x < bm23.width ∧
      (∀ j, l.start.x ≤ j → j ≤ l.«end».x → bm23.cell l.start.y j = true) ∧
      (l.start.x = 0 ∨ bm23.cell l.start.y (l.start.x - 1) = false) ∧
      (l.«end».x + 1 = bm23.width ∨
        bm23.cell l.start.y (l.«end».x + 1) = false) ∧
      (∀ y a b, RunCells bm23 y a b →
        b - a + 1 ≤ l.«end».x - l.start.x + 1)) := by
  have hv : ValidGrid bm23 := by unfold ValidGrid; decide
  exact ⟨hv, find_hline_finds_longest_run bm23 hv
    ⟨0, 1, by decide, by decide, by decide⟩⟩

theorem find_hline_tiebreak_witness :
    ValidGrid bm23 ∧ MaxRun bm23 1 0 2 ∧
    ((Line.mk ⟨0, 1⟩ ⟨2, 1⟩).start.y < 1 ∨
      ((Line.mk ⟨0, 1⟩ ⟨2, 1⟩).start.y = 1 ∧
        (Line.mk ⟨0, 1⟩ ⟨2, 1⟩).start.x ≤ 0)) := by
  have hv : ValidGrid bm23 := by unfold ValidGrid; decide
  have hmr : MaxRun bm23 1 0 2 := by
    refine ⟨⟨by decide, by decide, by decide, ?_⟩, Or.inl rfl, Or.inl rfl⟩
    intro j h1 h2
    have : j = 0 ∨ j = 1 ∨ j = 2 := by omega
    rcases this with rfl | rfl | rfl <;> decide
  exact ⟨hv, hmr, find_hline_tiebreak bm23 hv ⟨⟨0, 1⟩, ⟨2, 1⟩⟩
    find_hline_bm23 1 0 2 hmr (by decide)⟩

theorem find_hline_refines_naive_witness :
    ValidGrid bm23 ∧ find_hline bm23 = naive_hline bm23 := by
  have hv : ValidGrid bm23 := by unfold ValidGrid; decide
  exact ⟨hv, find_hline_refines_naive bm23 hv⟩

theorem hline_none_iff_blank_witness :
    (find_hline bm23 = none ↔
      ∀ y x, y < bm23.height → x < bm23.width → bm23.cell y x = false) ∧
    ((∀ y x, y < bm23.height → x < bm23.width → bm23.cell y x = false) →
      main_run ["p", "hline", "f"] (fun _ => some src23) =
        ⟨"", "No line found\n", 1⟩) ∧
    (∀ l, find_hline bm23 = some l →
      main_run ["p", "hline", "f"] (fun _ => some src23) =
        ⟨print_line l, "", 0⟩) :=
  hline_none_iff_blank (fun _ => some src23) "p" "f" bm23 load_src23

theorem load_bitmap_layout_witness :
    ∃ bm, load_bitmap (some ⟨Token.num 2 :: Token.num 3 ::
        ([Token.num 0, Token.num 1, Token.num 1, Token.num 1, Token.num 1,
          Token.num 1] ++ [])⟩) = Except.ok bm ∧
      bm.height = 2 ∧ bm.width = 3 ∧ bm.data.length = 2 * 3 ∧
      ∀ y x, y < 2 → x < 3 →
        (bm.data.getD (y * bm.width + x) false = true ↔
          [Token.num 0, Token.num 1, Token.num 1, Token.num 1, Token.num 1,
            Token.num 1].getD (y * 3 + x) Token.other = Token.num 1) := by
  refine load_bitmap_layout 2 3
    [Token.num 0, Token.num 1, Token.num 1, Token.num 1, Token.num 1,
      Token.num 1] [] (by decide) (by decide) (by decide) (by decide)
    (by decide) (by decide) ?_
  intro i hi
  have : i = 0 ∨ i = 1 ∨ i = 2 ∨ i = 3 ∨ i = 4 ∨ i = 5 := by omega
  rcases this with rfl | rfl | rfl | rfl | rfl | rfl
  exacts [Or.inl rfl, Or.inr rfl, Or.inr rfl, Or.inr rfl, Or.inr rfl,
    Or.inr rfl]

theorem find_hline_no_wraparound_witness :
    (∀ st : SState, st.length_final ≤ bm23.width →
      usub bm23.width st.length_final = bm23.width - st.length_final) ∧
    (∀ y x st, st.length_final ≤ bm23.width →
      (rowLoop bm23 y x st).length_final ≤ bm23.width) ∧
    (∀ y st, st.length_final ≤ bm23.width →
      (findLoop bm23 y st).length_final ≤ bm23.width) :=
  find_hline_no_wraparound bm23 (by decide) (by decide)

theorem load_bitmap_area_mod_witness :
    load_bitmap (some ⟨[Token.num 65536, Token.num 65536]⟩) =
      Except.ok ⟨65536, 65536, []⟩ :=
  (load_bitmap_area_mod 65536 65536 [] (by decide) (by decide) (by decide)
    (by decide)).1 [] rfl
